import Mathlib

/-!
Shallow embedding of `src/main.rs` of the `ascii` image-to-character-art
program, together with theorems checking the natural-language specification
against it.

Modelling conventions:
* Rust machine integers (`u8`, `u32`, `usize`) are modelled as `ℕ`; the one
  subtraction on `usize` that can underflow (`self.1.len() - 1`) is noted at
  its use site.
* Rust `f64` arithmetic is modelled exactly: `round53` rounds a rational to
  the nearest IEEE-754 binary64 value (53-bit significand, ties to even),
  and every `f64` operation of the source is modelled as the exact rational
  operation followed by `round53`.  All quantities reached by the program
  stay far inside the normal (finite, non-subnormal) range of binary64, so
  neither overflow nor subnormal rounding needs a special case.
  For kernel executability the definitions build rationals with `mkRat` and
  `qmul` (plain definitions that the kernel can evaluate); the lemmas
  `qmul_eq_mul` and `mkRat_eq_natCast_div` restate them as the ordinary
  field operations of `ℚ`.
* Code that can panic (`assert!`, `expect`, indexing) is modelled with
  `Option`/`Except`: `none`/`.error` is a panic (abnormal termination).
* The font (`fontdue::Font::rasterize`) and the resampler
  (`image::imageops::resize`) are external collaborators; they are taken as
  abstract function parameters.
-/

namespace Ascii

/-- Number of binary digits of `n`, eight bits per recursion step, with
explicit fuel so that the kernel can evaluate it cheaply.  `blenAux 32 n` is
exact for every `n < 2 ^ 256`, far above every number reached in this
development. -/
def blenAux : ℕ → ℕ → ℕ
  | 0, _ => 0
  | fuel + 1, n =>
    if n < 256 then
      if n = 0 then 0
      else if n < 2 then 1
      else if n < 4 then 2
      else if n < 8 then 3
      else if n < 16 then 4
      else if n < 32 then 5
      else if n < 64 then 6
      else if n < 128 then 7
      else 8
    else blenAux fuel (n / 256) + 8

/-- Number of binary digits of `n` (`blen 0 = 0`, `blen 1 = 1`, `blen 2 = 2`). -/
def blen (n : ℕ) : ℕ := blenAux 32 n

/-- Exact product of two rationals, written so that the kernel can evaluate
it (`Rat.mul` of the ambient library is `@[irreducible]`).
`qmul_eq_mul` shows it is ordinary multiplication on `ℚ`. -/
def qmul (a b : ℚ) : ℚ := mkRat (a.num * b.num) (a.den * b.den)

/-- Round-half-to-even of the nonnegative rational `N / d` to an integer:
the floor, bumped by one when the fractional part exceeds one half, tie
broken toward the even integer.  This is the significand-selection step of
binary64 rounding. -/
def rheM (N d : ℕ) : ℕ :=
  let i := N / d
  let r2 := 2 * (N % d)
  if r2 < d then i else if d < r2 then i + 1 else if i % 2 = 0 then i else i + 1

/-- The binary exponent of `n / d` (for positive `n`, `d` inside the fuel
range of `blen`): the unique `E` with `2 ^ E ≤ n / d < 2 ^ (E + 1)`. -/
def bexp (n d : ℕ) : ℤ :=
  if d * 2 ^ blen n ≤ n * 2 ^ blen d then (blen n : ℤ) - blen d else (blen n : ℤ) - blen d - 1

/-- Round the nonnegative rational `n / d` (`d ≠ 0`) to the nearest rational
representable with a 53-bit significand, ties to even: the exact value of
rounding `n / d` to IEEE-754 binary64 in the default rounding mode, for
values inside the normal range.  With `E := bexp n d` the representable grid
near `n / d` is the integers scaled by `2 ^ (E - 52)`, so the significand is
`rheM` of the scaled value. -/
def round53Pos (n d : ℕ) : ℚ :=
  if n = 0 then 0
  else
    let k : ℤ := 52 - bexp n d
    if 0 ≤ k then
      mkRat (rheM (n * 2 ^ k.toNat) d) (2 ^ k.toNat)
    else
      mkRat (rheM n (d * 2 ^ (-k).toNat) * 2 ^ (-k).toNat) 1

/-- Round a rational to the nearest IEEE-754 binary64 value (ties to even),
for values inside the normal range.  This is the exact semantics of every
`f64` operation of the source program. -/
def round53 (q : ℚ) : ℚ :=
  if q < 0 then -(round53Pos q.num.natAbs q.den) else round53Pos q.num.toNat q.den

/-- Rust `f64::trunc` followed by `as usize` for the nonnegative values the
program produces: truncation toward zero (`Int` division in Lean truncates
toward zero, and `toNat` clamps the never-occurring negative case to 0 the
way a saturating Rust float-to-int cast would). -/
def ratTruncNat (q : ℚ) : ℕ := (q.num / (q.den : ℤ)).toNat

/-- The character-index computation
`(sample as f64 / 255. * (len - 1) as f64).trunc() as usize` shared by both
output paths of `main.rs` (`Display::fmt` line 92 and
`AsciiImage::rasterize` lines 67–69), with exact binary64 rounding at each
`f64` operation: `mkRat s 255` is the exact quotient `s / 255` (rounded by
the `f64` division), `(L - 1 : ℕ)` is the `usize` subtraction (rounded by
the `usize → f64` cast), and `qmul` is the exact product (rounded by the
`f64` multiplication).  `L = 0` makes the source panic — in debug builds at
the `usize` underflow, in release builds at the subsequent ramp indexing —
which the callers model by `Option` on the ramp lookup; the `ℕ` truncated
subtraction used here keeps the index at 0 in that case, and the lookup
fails on the empty ramp exactly as the source panics. -/
def quantize (s L : ℕ) : ℕ :=
  ratTruncNat (round53 (qmul (round53 (mkRat s 255)) (round53 ((L - 1 : ℕ) : ℚ))))

/-- The quantization expression exactly as it occurs in `Display::fmt`
(src/main.rs line 92). -/
def fmtCharIndex (s L : ℕ) : ℕ :=
  ratTruncNat (round53 (qmul (round53 (mkRat s 255)) (round53 ((L - 1 : ℕ) : ℚ))))

/-- The quantization expression exactly as it occurs in
`AsciiImage::rasterize` (src/main.rs lines 67–69). -/
def rasterCharIndex (s L : ℕ) : ℕ :=
  ratTruncNat (round53 (qmul (round53 (mkRat s 255)) (round53 ((L - 1 : ℕ) : ℚ))))

/-- A grayscale image (`image::GrayImage`): 8-bit luminance samples in
row-major order.  A decoded image always satisfies
`data.length = width * height`; theorems that need this state it as a
hypothesis. -/
structure GrayImg where
  width : ℕ
  height : ℕ
  data : List ℕ

/-- Pixel access `GrayImage::get_pixel(x, y)` for in-range coordinates (out of range the
source would panic; the default 0 is never exercised by the theorems). -/
def GrayImg.get (im : GrayImg) (x y : ℕ) : ℕ := im.data.getD (y * im.width + x) 0

/-- The part of `fontdue::Metrics` the program reads: the rendered glyph
width and height in pixels. -/
structure Metrics where
  width : ℕ
  height : ℕ

/-- An abstract font: `fontdue::Font::rasterize` takes a character and a
requested pixel size and returns metrics plus a row-major coverage bitmap
(an external collaborator, taken as a parameter). -/
abbrev FontFn := Char → ℕ → Metrics × List ℕ

/-- The two panic sites of the per-character rasterization
(src/main.rs lines 29–39 and 53).  The two `assert!` messages interpolate
the offending character (`"rastered image won't fit in bounding box '{}'"`),
so `boundsOverflow` carries it; the bitmap-exhaustion `expect` message
(`"rasterized image buffer too small"`) does not mention the character, so
`bufferTooSmall` carries nothing. -/
inductive RasterErr where
  | boundsOverflow (c : Char)
  | bufferTooSmall
deriving DecidableEq

/-- The per-character body of the cache-building closure of
`AsciiImage::rasterize` (src/main.rs lines 26–59): render the glyph at
requested size `px - 1`, assert that the rendered metrics fit in the
`px × px` cell, start from an all-white (255) `px × px` canvas, and copy the
coverage bitmap — inverted as `255 - coverage` — into the rectangle of size
`metrics.width × metrics.height` at the centred offsets
`(px - width) >> 1`, `(px - height) >> 1`, consuming the bitmap in row-major
order.  The result is the canvas as a pixel function; pixels outside the
rectangle keep the initial 255.  (For `px = 0` the source would underflow
`px - 1` on `u32`; every theorem below uses `0 < px`.) -/
def rasterizeGlyphE (font : FontFn) (px : ℕ) (c : Char) : Except RasterErr (ℕ → ℕ → ℕ) :=
  let mb := font c (px - 1)
  let m := mb.1
  let bitmap := mb.2
  if m.height ≤ px then
    if m.width ≤ px then
      if m.width * m.height ≤ bitmap.length then
        Except.ok fun x y =>
          let dx := (px - m.width) / 2
          let dy := (px - m.height) / 2
          if dx ≤ x ∧ x < m.width + dx ∧ dy ≤ y ∧ y < m.height + dy then
            255 - bitmap.getD ((y - dy) * m.width + (x - dx)) 0
          else 255
      else Except.error RasterErr.bufferTooSmall
    else Except.error (RasterErr.boundsOverflow c)
  else Except.error (RasterErr.boundsOverflow c)

/-- The cell `rasterizeGlyphE` with the panic collapsed to `none`, the view the rest
of the pipeline uses. -/
def rasterizeGlyph (font : FontFn) (px : ℕ) (c : Char) : Option (ℕ → ℕ → ℕ) :=
  (rasterizeGlyphE font px c).toOption

/-- An output raster canvas (`ImageBuffer<Luma<u8>, Vec<u8>>`) as dimensions
plus a pixel function. -/
structure RasterImg where
  width : ℕ
  height : ℕ
  pix : ℕ → ℕ → ℕ

/-- The pair `struct AsciiImage(GrayImage, Vec<char>)` (src/main.rs line 22). -/
structure AsciiImage where
  image : GrayImg
  table : List Char

/-- Raster-mode compositing, `AsciiImage::rasterize` (src/main.rs lines 25–82): build the glyph cache
for every ramp character (any glyph panic aborts the whole call, before the
pixel loop starts), then for every source pixel quantize its sample, look
the chosen character up in the cache and copy its `px × px` bitmap to block
`(x*px, y*px)` of a `width*px × height*px` canvas.  A ramp-index panic
(empty ramp) is modelled by the bounds check on the quantized index; the
cache lookup `cache.get(&c).unwrap()` then always succeeds because the
chosen character is a ramp member.  Every canvas pixel lies in exactly one
block, so the canvas is the block function written with `/` and `%`. -/
def AsciiImage.rasterize (a : AsciiImage) (font : FontFn) (px : ℕ) : Option RasterImg :=
  if (a.table.all fun c => (rasterizeGlyph font px c).isSome) then
    if ((List.range a.image.height).all fun y =>
        (List.range a.image.width).all fun x =>
          rasterCharIndex (a.image.get x y) a.table.length < a.table.length) then
      some
        { width := a.image.width * px
          height := a.image.height * px
          pix := fun X Y =>
            let c := a.table.getD
              (rasterCharIndex (a.image.get (X / px) (Y / px)) a.table.length) 'A'
            ((rasterizeGlyph font px c).getD fun _ _ => 0) (X % px) (Y % px) }
    else none
  else none

/-- Text-mode formatting, `Display::fmt` for `AsciiImage` (src/main.rs lines 85–103): for each
pixel row, map every sample to its ramp character, duplicate the character
(`to_string().repeat(2)`), concatenate the row, and join the rows with
`"\r\n"` (no trailing terminator).  The ramp indexing panics on an empty
ramp, modelled by `List.get?`. -/
def AsciiImage.fmt (a : AsciiImage) : Option String :=
  (((List.range a.image.height).mapM fun y =>
      (((List.range a.image.width).mapM fun x =>
          (a.table.get? (fmtCharIndex (a.image.get x y) a.table.length)).map
            fun c => String.mk [c, c])).map
        fun parts => String.join parts)).map
    fun rows => String.intercalate "\r\n" rows

/-- Rust `str::split(":")` on a list of characters: fields between
occurrences of `':'`, empty fields preserved, one (empty) field for the
empty string. -/
def splitCols : List Char → List (List Char)
  | [] => [[]]
  | c :: rest =>
    let r := splitCols rest
    if c = ':' then [] :: r
    else
      match r with
      | [] => [[c]]
      | f :: fs => (c :: f) :: fs

/-- Rust `str::parse::<u32>()`: an optional leading `'+'`, then at least one
ASCII digit, value below `2^32`; anything else is `Err` (which the source
turns into a panic via `expect`). -/
def parseU32 (f : List Char) : Option ℕ :=
  let t := match f with
    | '+' :: rest => rest
    | _ => f
  if t.isEmpty || !(t.all fun c => c.isDigit) then none
  else
    let n := t.foldl (fun acc c => acc * 10 + (c.toNat - 48)) 0
    if n < 2 ^ 32 then some n else none

/-- Scale-spec parsing, `Scaler::parse` (src/main.rs lines 108–126): split on `':'`, map `"_"`
to `None` and anything else through `parse::<u32>` (panic on failure,
modelled by the `all` guard), then require exactly one field (duplicated
into both positions) or exactly two fields; any other count panics
(`assert!(sizes.len() == 2, "invalid scale value")`). -/
def Scaler.parse (scale : String) : Option (Option ℕ × Option ℕ) :=
  let fields := splitCols scale.data
  if fields.all fun f => f == ['_'] || (parseU32 f).isSome then
    match fields.map fun f => if f = ['_'] then none else parseU32 f with
    | [a] => some (a, a)
    | [a, b] => some (a, b)
    | _ => none
  else none

/-- The five `image::imageops::FilterType` values selectable on the command
line (src/main.rs lines 241–248). -/
inductive Filter where
  | nearest
  | triangle
  | catmullRom
  | gaussian
  | lanczos3
deriving DecidableEq

/-- The aspect-preserving other dimension of `Scaler::scale`
(src/main.rs lines 140–149): `given as f64 / srcGiven as f64 * srcOther as
f64` followed by `as u32`.  The `u32 → f64` casts are exact (`u32` values
sit inside binary64's 53-bit significand); the division and multiplication
round; the `f64 → u32` cast truncates toward zero and saturates, and maps
NaN to 0.  The `srcGiven = 0` branch spells out the infinity/NaN cases of
the source (`x / 0.0`). -/
def aspectOther (given srcGiven srcOther : ℕ) : ℕ :=
  if srcGiven = 0 then
    if given = 0 ∨ srcOther = 0 then 0 else 2 ^ 32 - 1
  else
    min (ratTruncNat (round53 (qmul (round53 (mkRat given srcGiven)) ((srcOther : ℕ) : ℚ))))
      (2 ^ 32 - 1)

/-- Image scaling, `Scaler::scale` (src/main.rs lines 128–168).  The actual resampling
(`image::imageops::resize`) is an external collaborator, passed in as
`resize`.  With both dimensions absent the source rebuilds the buffer by
iterating `pixels()` in row-major order and flattening each pixel's
channels (a single luma channel), then `ImageBuffer::from_raw` — which
succeeds because the collected buffer has exactly `width * height`
samples. -/
def Scaler.scale (resize : GrayImg → ℕ → ℕ → Filter → GrayImg)
    (sp : Option ℕ × Option ℕ) (image : GrayImg) (filter : Filter) : GrayImg :=
  match sp with
  | (some width, some height) => resize image width height filter
  | (some width, none) => resize image width (aspectOther width image.width image.height) filter
  | (none, some height) => resize image (aspectOther height image.height image.width) height filter
  | (none, none) =>
    { width := image.width
      height := image.height
      data := ((List.range image.height).map fun y =>
        (List.range image.width).map fun x => image.get x y).flatten }

/-- The command-line configuration of `main` after argument parsing
(src/main.rs lines 238–262), excluding the input/output paths (file system
collaborators): the optional `--scale` string, the `--filter` choice, the
ramp from `--table` (default `"@%#*+=-:. "`), the `--raster` switch, the
parsed `--font-size` (default 16), and the `--rgb` switch. -/
structure Config where
  scale : Option String
  filter : Filter
  table : List Char
  raster : Bool
  fontSize : ℕ
  rgb : Bool

/-- What a run produces for its output collaborator: the text written to the
output file, or the raster canvas handed to the image encoder. -/
inductive Output where
  | text (s : String)
  | raster (img : RasterImg)

/-- The core pipeline of `main` (src/main.rs lines 264–300) after the
external collaborators (argument parsing, file existence checks, image
decoding, font loading) have produced `cfg`, the decoded grayscale `input`
and the loaded `font`: optionally parse the scale spec and scale the image,
then either rasterize or format as text.  `none` is a panic anywhere in the
pipeline. -/
def runMain (resize : GrayImg → ℕ → ℕ → Filter → GrayImg) (font : FontFn)
    (cfg : Config) (input : GrayImg) : Option Output :=
  match (match cfg.scale with
         | some size => (Scaler.parse size).map fun sp => Scaler.scale resize sp input cfg.filter
         | none => some input) with
  | none => none
  | some img =>
    if cfg.raster then
      (AsciiImage.mk img cfg.table).rasterize font cfg.fontSize |>.map Output.raster
    else
      (AsciiImage.mk img cfg.table).fmt.map Output.text

/-- Concrete abstract font used by the glyph witnesses: every character
renders as a 2×3 glyph with a six-sample coverage bitmap. -/
def demoFont : FontFn := fun _ _ => (⟨2, 3⟩, [10, 20, 30, 40, 50, 60])

/-- Concrete abstract font whose coverage bitmap is shorter than
`width * height`, exercising the bitmap-exhaustion panic. -/
def shortBitmapFont : FontFn := fun _ _ => (⟨2, 2⟩, [0])

/-- Concrete abstract font whose glyphs have zero extent (all-white cells),
used by the compositing witnesses. -/
def zeroGlyphFont : FontFn := fun _ _ => (⟨0, 0⟩, [])

/-- A uniformly black 2×2 source image (the spec's raster-mode scenario). -/
def blackImg2 : GrayImg := ⟨2, 2, [0, 0, 0, 0]⟩

/-- A uniformly white 4×4 source image (the spec's text-mode scenario). -/
def whiteImg4 : GrayImg := ⟨4, 4, List.replicate 16 255⟩

/-- The three-character ramp of the spec's scenarios. -/
def demoRamp : List Char := "#. ".data

/-- A resampler that returns its input unchanged, used where a theorem holds
for every resampler. -/
def idResize : GrayImg → ℕ → ℕ → Filter → GrayImg := fun i _ _ _ => i

/-- Concrete abstract font whose glyphs render at height exactly equal to an
8-pixel cell (the boundary case). -/
def boundaryFont : FontFn := fun _ _ => (⟨2, 8⟩, List.replicate 16 0)

/-- Concrete abstract font whose glyphs render at height 9, one more than an
8-pixel cell. -/
def overFont : FontFn := fun _ _ => (⟨2, 9⟩, List.replicate 18 0)

/-! ## Bridge lemmas: the kernel-executable rational operations are the
field operations of `ℚ` -/

/-- The executable `qmul` is multiplication on `ℚ`. -/
theorem qmul_eq_mul (a b : ℚ) : qmul a b = a * b := by
  rw [qmul, Rat.mkRat_eq_div]
  push_cast
  rw [← div_mul_div_comm, Rat.num_div_den, Rat.num_div_den]

/-- On naturals `mkRat` is the quotient of the casts. -/
theorem mkRat_eq_natCast_div (n d : ℕ) : (mkRat n d : ℚ) = (n : ℚ) / (d : ℚ) := by
  rw [Rat.mkRat_eq_div]
  push_cast
  ring

/-- The index `quantize` written with the ordinary field operations of `ℚ`: it is the
truncation of `(s / 255) * (L - 1)` with a binary64 rounding after each
operation. -/
theorem quantize_f64_form (s L : ℕ) :
    quantize s L =
      ratTruncNat (round53 (round53 ((s : ℚ) / 255) * round53 ((L - 1 : ℕ) : ℚ))) := by
  rw [quantize, qmul_eq_mul, mkRat_eq_natCast_div]
  norm_num

/-! ## Claim theorems -/

/-- C9: text mode and raster mode apply the quantization identically — for
every grayscale sample and every ramp, the ramp character selected by the
`Display::fmt` (text) expression equals the one selected by the
`AsciiImage::rasterize` (raster) expression. -/
theorem fmt_raster_same_char (ramp : List Char) (s : ℕ) :
    ramp.get? (fmtCharIndex s ramp.length) = ramp.get? (rasterCharIndex s ramp.length) := rfl

/-- C10: the `--rgb` flag is parsed into a variable that is never read, so
for every resampler, font, configuration and input image the produced output
is identical whether or not the flag is supplied. -/
theorem rgb_flag_no_effect (resize : GrayImg → ℕ → ℕ → Filter → GrayImg) (font : FontFn)
    (cfg : Config) (input : GrayImg) :
    runMain resize font { cfg with rgb := true } input =
      runMain resize font { cfg with rgb := false } input := rfl

/-- C2 counterexample: with an empty character ramp the program does *not*
abort before pipeline execution — with an empty (0×0) input image, text
mode and no scaling, the run enters the pipeline and completes successfully
with empty output.  (src/main.rs line 249 performs no emptiness check on the
ramp.) -/
theorem emptyRamp_completes_on_empty_image :
    runMain idResize zeroGlyphFont ⟨none, Filter.lanczos3, [], false, 16, false⟩ ⟨0, 0, []⟩ =
      some (Output.text "") := rfl

/-- C2 (amended): no empty-ramp validation happens before the pipeline; the
empty ramp reaches the quantization/formatting code, and with a nonempty
unscaled image in text mode the run aborts there (ramp-index panic inside
`Display::fmt`), not before pipeline execution. -/
theorem emptyRamp_panics_during_pipeline (resize : GrayImg → ℕ → ℕ → Filter → GrayImg)
    (font : FontFn) (cfg : Config) (input : GrayImg) (ht : cfg.table = [])
    (hs : cfg.scale = none) (hr : cfg.raster = false) (hw : 0 < input.width)
    (hh : 0 < input.height) :
    runMain resize font cfg input = none := by
  obtain ⟨w, hwval⟩ : ∃ w, input.width = w + 1 := ⟨input.width - 1, by omega⟩
  obtain ⟨k, hhval⟩ : ∃ k, input.height = k + 1 := ⟨input.height - 1, by omega⟩
  simp only [runMain, hs, hr, AsciiImage.fmt, ht, hwval, hhval, Bool.false_eq_true, if_false]
  rw [List.range_succ_eq_map, List.range_succ_eq_map]
  simp [List.mapM.loop]

/-- Witness for C2's amended theorem at a concrete configuration and a 1×1
black image. -/
theorem emptyRamp_panics_during_pipeline_witness :
    ((⟨none, Filter.lanczos3, [], false, 16, false⟩ : Config).table = [] ∧
      (⟨none, Filter.lanczos3, [], false, 16, false⟩ : Config).scale = none ∧
      (⟨none, Filter.lanczos3, [], false, 16, false⟩ : Config).raster = false ∧
      0 < (⟨1, 1, [0]⟩ : GrayImg).width ∧ 0 < (⟨1, 1, [0]⟩ : GrayImg).height) ∧
    runMain idResize zeroGlyphFont ⟨none, Filter.lanczos3, [], false, 16, false⟩ ⟨1, 1, [0]⟩ =
      none :=
  ⟨⟨rfl, rfl, rfl, by decide, by decide⟩,
    emptyRamp_panics_during_pipeline idResize zeroGlyphFont _ _ rfl rfl rfl
      (by decide) (by decide)⟩

set_option maxRecDepth 10000 in
/-- Correctness of the fuel-based bit length: for positive `n` inside the
fuel range, `blenAux fuel n` is the exact number of binary digits. -/
theorem blenAux_bounds :
    ∀ fuel n, 0 < n → n < 2 ^ (8 * fuel) →
      2 ^ (blenAux fuel n - 1) ≤ n ∧ n < 2 ^ blenAux fuel n := by
  intro fuel
  induction fuel with
  | zero =>
    intro n h0 hb
    simp at hb
    omega
  | succ f ih =>
    intro n h0 hb
    by_cases hn : n < 256
    · have hsmall : ∀ m, m < 256 → 0 < m → 2 ^ (blenAux 1 m - 1) ≤ m ∧ m < 2 ^ blenAux 1 m := by
        decide
      have he : blenAux (f + 1) n = blenAux 1 n := by
        rw [blenAux, blenAux, if_pos hn, if_pos hn]
      rw [he]
      exact hsmall n hn h0
    · rw [blenAux, if_neg hn]
      push_neg at hn
      have h0q : 0 < n / 256 := Nat.div_pos hn (by norm_num)
      have hbq : n / 256 < 2 ^ (8 * f) := by
        rw [Nat.div_lt_iff_lt_mul (by norm_num : (0:ℕ) < 256)]
        calc n < 2 ^ (8 * (f + 1)) := hb
        _ = 2 ^ (8 * f) * 256 := by rw [Nat.mul_succ, pow_add]; norm_num
      obtain ⟨hlo, hhi⟩ := ih (n / 256) h0q hbq
      have hbpos : 1 ≤ blenAux f (n / 256) := by
        by_contra hc
        push_neg at hc
        interval_cases h : blenAux f (n / 256)
        simp [h] at hhi
        omega
      constructor
      · have : 2 ^ (blenAux f (n / 256) - 1) * 256 ≤ n / 256 * 256 :=
          Nat.mul_le_mul_right 256 hlo
        calc 2 ^ (blenAux f (n / 256) + 8 - 1) = 2 ^ (blenAux f (n / 256) - 1) * 256 := by
              rw [show blenAux f (n / 256) + 8 - 1 = blenAux f (n / 256) - 1 + 8 by omega,
                pow_add]
              norm_num
        _ ≤ n / 256 * 256 := this
        _ ≤ n := Nat.div_mul_le_self n 256
      · have h1 : n < (n / 256 + 1) * 256 := by
          have := Nat.div_add_mod n 256
          have := Nat.mod_lt n (show 0 < 256 by norm_num)
          omega
        have h2 : (n / 256 + 1) * 256 ≤ 2 ^ blenAux f (n / 256) * 256 :=
          Nat.mul_le_mul_right 256 hhi
        calc n < (n / 256 + 1) * 256 := h1
        _ ≤ 2 ^ blenAux f (n / 256) * 256 := h2
        _ = 2 ^ (blenAux f (n / 256) + 8) := by rw [pow_add]; norm_num

/-- `blen n` is the exact bit length of `n` for `0 < n < 2 ^ 256`. -/
theorem blen_bounds (n : ℕ) (h0 : 0 < n) (hb : n < 2 ^ 256) :
    2 ^ (blen n - 1) ≤ n ∧ n < 2 ^ blen n :=
  blenAux_bounds 32 n h0 (by exact hb)

/-- Positive numbers have positive bit length. -/
theorem blen_pos (n : ℕ) (h0 : 0 < n) (hb : n < 2 ^ 256) : 1 ≤ blen n := by
  by_contra hc
  push_neg at hc
  interval_cases h : blen n
  have := (blen_bounds n h0 hb).2
  simp [h] at this
  omega

/-- The rounded significand is at least the floor. -/
theorem rheM_ge (N d : ℕ) : N / d ≤ rheM N d := by
  rw [rheM]
  split
  · exact Nat.le_refl _
  · split
    · omega
    · split <;> omega

/-- The rounded significand is at most the floor plus one. -/
theorem rheM_le (N d : ℕ) : rheM N d ≤ N / d + 1 := by
  rw [rheM]
  split
  · omega
  · split
    · omega
    · split <;> omega

/-- Rounding an integer (denominator one) is the identity. -/
theorem rheM_one (N : ℕ) : rheM N 1 = N := by
  simp [rheM, Nat.mod_one, Nat.div_one]

/-- Round-half-to-even is monotone: if `N / d ≤ N' / d'` as rationals
(cross-multiplied), the rounded significands are ordered the same way. -/
theorem rheM_mono (N d N' d' : ℕ) (hd : 0 < d) (hd' : 0 < d')
    (hle : N * d' ≤ N' * d) : rheM N d ≤ rheM N' d' := by
  have hii : N / d ≤ N' / d' := by
    rw [Nat.le_div_iff_mul_le hd']
    have h1 : N / d * d * d' ≤ N * d' := Nat.mul_le_mul_right d' (Nat.div_mul_le_self N d)
    have h3 : N / d * d' * d ≤ N' * d := by
      rw [show N / d * d' * d = N / d * d * d' by ring]
      exact le_trans h1 hle
    exact Nat.le_of_mul_le_mul_right h3 hd
  rcases Nat.lt_or_ge (N / d) (N' / d') with hlt | hge
  · calc rheM N d ≤ N / d + 1 := rheM_le N d
    _ ≤ N' / d' := hlt
    _ ≤ rheM N' d' := rheM_ge N' d'
  have heq : N' / d' = N / d := le_antisymm hge hii
  have hrr : N % d * d' ≤ N' % d' * d := by
    have e1 : d * (N / d) + N % d = N := Nat.div_add_mod N d
    have e2 : d' * (N' / d') + N' % d' = N' := Nat.div_add_mod N' d'
    have expand : d * (N / d) * d' + N % d * d' ≤ d' * (N' / d') * d + N' % d' * d := by
      calc d * (N / d) * d' + N % d * d' = (d * (N / d) + N % d) * d' := by ring
      _ = N * d' := by rw [e1]
      _ ≤ N' * d := hle
      _ = (d' * (N' / d') + N' % d') * d := by rw [e2]
      _ = d' * (N' / d') * d + N' % d' * d := by ring
    have same : d * (N / d) * d' = d' * (N' / d') * d := by
      rw [heq]
      ring
    omega
  -- left strictly above half forces right strictly above half
  have habove : d < 2 * (N % d) → d' < 2 * (N' % d') := by
    intro c2
    by_contra hc
    push_neg at hc
    have h1 : 2 * (N % d) * d' ≤ 2 * (N' % d') * d := by
      calc 2 * (N % d) * d' = 2 * (N % d * d') := by ring
      _ ≤ 2 * (N' % d' * d) := Nat.mul_le_mul_left 2 hrr
      _ = 2 * (N' % d') * d := by ring
    have h2 : 2 * (N' % d') * d ≤ d' * d := Nat.mul_le_mul_right d hc
    have h3 : d * d' < 2 * (N % d) * d' := (Nat.mul_lt_mul_right hd').mpr c2
    have h4 : d * d' = d' * d := by ring
    omega
  -- left exact tie forces right at least half
  have htie : 2 * (N % d) = d → d' ≤ 2 * (N' % d') := by
    intro ctie
    by_contra hc
    push_neg at hc
    have h1 : 2 * (N % d) * d' ≤ 2 * (N' % d') * d := by
      calc 2 * (N % d) * d' = 2 * (N % d * d') := by ring
      _ ≤ 2 * (N' % d' * d) := Nat.mul_le_mul_left 2 hrr
      _ = 2 * (N' % d') * d := by ring
    have h2 : 2 * (N' % d') * d < d' * d := (Nat.mul_lt_mul_right hd).mpr hc
    have h3 : d * d' = d' * d := by ring
    rw [ctie] at h1
    omega
  simp only [rheM]
  rw [heq]
  by_cases c1 : 2 * (N % d) < d
  · -- left rounds down to the common floor; right is at least the floor
    rw [if_pos c1]
    by_cases c1' : 2 * (N' % d') < d'
    · rw [if_pos c1']
    · rw [if_neg c1']
      by_cases c2' : d' < 2 * (N' % d')
      · rw [if_pos c2']
        omega
      · rw [if_neg c2']
        by_cases c3' : N / d % 2 = 0
        · rw [if_pos c3']
        · rw [if_neg c3']
          omega
  · rw [if_neg c1]
    push_neg at c1
    by_cases c2 : d < 2 * (N % d)
    · -- left strictly above half: left = floor + 1, and right = floor + 1 too
      rw [if_pos c2]
      have hr' := habove c2
      rw [if_neg (by omega : ¬ 2 * (N' % d') < d'), if_pos hr']
    · -- exact tie on the left
      have ctie : 2 * (N % d) = d := by omega
      rw [if_neg c2]
      have hr' := htie ctie
      by_cases c3 : N / d % 2 = 0
      · -- even floor: left = floor; right ≥ floor in every case
        rw [if_pos c3]
        by_cases c1' : 2 * (N' % d') < d'
        · rw [if_pos c1']
        · rw [if_neg c1']
          by_cases c2' : d' < 2 * (N' % d')
          · rw [if_pos c2']
            omega
          · rw [if_neg c2']
      · -- odd floor: left = floor + 1; the right cannot round down
        rw [if_neg c3]
        by_cases c2' : d' < 2 * (N' % d')
        · rw [if_neg (by omega : ¬ 2 * (N' % d') < d'), if_pos c2']
        · have ctie' : 2 * (N' % d') = d' := by omega
          rw [if_neg (by omega : ¬ 2 * (N' % d') < d'), if_neg c2']



/-- The computed binary exponent is correct: `2 ^ bexp n d ≤ n / d <
2 ^ (bexp n d + 1)` for positive `n`, `d` inside the fuel range. -/
theorem bexp_window (n d : ℕ) (hn : 0 < n) (hd : 0 < d) (hnb : n < 2 ^ 256)
    (hdb : d < 2 ^ 256) :
    (2 : ℚ) ^ bexp n d ≤ (n : ℚ) / d ∧ (n : ℚ) / d < 2 ^ (bexp n d + 1) := by
  obtain ⟨hn1, hn2⟩ := blen_bounds n hn hnb
  obtain ⟨hd1, hd2⟩ := blen_bounds d hd hdb
  have hbn := blen_pos n hn hnb
  have hbd := blen_pos d hd hdb
  have h2 : (2 : ℚ) ≠ 0 := by norm_num
  rw [bexp]
  by_cases hcond : d * 2 ^ blen n ≤ n * 2 ^ blen d
  · rw [if_pos hcond]
    constructor
    · rw [zpow_sub₀ h2, zpow_natCast, zpow_natCast,
        div_le_div_iff₀ (by positivity) (by positivity)]
      exact_mod_cast Nat.le_trans (Nat.le_of_eq (Nat.mul_comm _ _)) hcond
    · have e : (blen n : ℤ) - blen d + 1 = ((blen n + 1 : ℕ) : ℤ) - (blen d : ℕ) := by
        push_cast
        ring
      rw [e, zpow_sub₀ h2, zpow_natCast, zpow_natCast,
        div_lt_div_iff₀ (by positivity) (by positivity)]
      have hnat : n * 2 ^ blen d < 2 ^ (blen n + 1) * d := by
        calc n * 2 ^ blen d < 2 ^ blen n * 2 ^ blen d :=
              (Nat.mul_lt_mul_right (Nat.pos_pow_of_pos _ (by norm_num))).mpr hn2
        _ = 2 ^ (blen n + 1) * 2 ^ (blen d - 1) := by
              rw [← pow_add, ← pow_add]
              congr 1
              omega
        _ ≤ 2 ^ (blen n + 1) * d := Nat.mul_le_mul_left _ hd1
      exact_mod_cast hnat
  · rw [if_neg hcond]
    push_neg at hcond
    constructor
    · have e : (blen n : ℤ) - blen d - 1 = ((blen n - 1 : ℕ) : ℤ) - (blen d : ℕ) := by
        rw [Nat.cast_sub hbn]
        push_cast
        ring
      rw [e, zpow_sub₀ h2, zpow_natCast, zpow_natCast,
        div_le_div_iff₀ (by positivity) (by positivity)]
      have hnat : 2 ^ (blen n - 1) * d ≤ n * 2 ^ blen d := by
        calc 2 ^ (blen n - 1) * d ≤ n * d := Nat.mul_le_mul_right d hn1
        _ ≤ n * 2 ^ blen d := Nat.mul_le_mul_left n (le_of_lt hd2)
      exact_mod_cast hnat
    · have e : (blen n : ℤ) - blen d - 1 + 1 = (blen n : ℤ) - (blen d : ℕ) := by ring
      rw [e, zpow_sub₀ h2, zpow_natCast, zpow_natCast,
        div_lt_div_iff₀ (by positivity) (by positivity)]
      exact_mod_cast Nat.lt_of_lt_of_le hcond (Nat.le_of_eq (Nat.mul_comm _ _))

/-- Below `2 ^ 53` the binary exponent is at most 52, so the rounding scale
is nonnegative. -/
theorem bexp_le_52 (n d : ℕ) (hn : 0 < n) (hd : 0 < d) (hnb : n < 2 ^ 256)
    (hdb : d < 2 ^ 256) (h53 : (n : ℚ) / d < 2 ^ 53) : bexp n d ≤ 52 := by
  have hwin := (bexp_window n d hn hd hnb hdb).1
  have hlt : (2 : ℚ) ^ bexp n d < (2 : ℚ) ^ ((53 : ℕ) : ℤ) := by
    rw [zpow_natCast]
    exact lt_of_le_of_lt hwin h53
  have := (zpow_lt_zpow_iff_right₀ (by norm_num : (1:ℚ) < 2)).mp hlt
  omega



/-- A positive rational is the quotient of its numerator (as a natural) by
its denominator. -/
theorem num_toNat_div (q : ℚ) (hq : 0 < q) : ((q.num.toNat : ℕ) : ℚ) / (q.den : ℚ) = q := by
  have hnum := Rat.num_pos.mpr hq
  rw [show ((q.num.toNat : ℕ) : ℚ) = ((q.num : ℤ) : ℚ) by
    rw [← Int.toNat_of_nonneg hnum.le]
    push_cast
    rfl]
  exact Rat.num_div_den q

/-- On positive inputs below `2 ^ 53`, `round53` takes the nonnegative-scale
branch: the significand is the rounded scaled value. -/
theorem round53_spec (q : ℚ) (hq : 0 < q) (hE : bexp q.num.toNat q.den ≤ 52) :
    round53 q = mkRat (rheM (q.num.toNat * 2 ^ (52 - bexp q.num.toNat q.den).toNat) q.den)
      (2 ^ (52 - bexp q.num.toNat q.den).toNat) := by
  have hn0 : ¬ q.num.toNat = 0 := by
    have := Rat.num_pos.mpr hq
    omega
  have hk : (0 : ℤ) ≤ 52 - bexp q.num.toNat q.den := by omega
  rw [round53, if_neg (not_lt.mpr hq.le), round53Pos, if_neg hn0]
  simp only [if_pos hk]

/-- The rounded value stays inside the closed binade of its input. -/
theorem round53_bounds (q : ℚ) (hq : 0 < q) (hnb : q.num.natAbs < 2 ^ 256)
    (hdb : q.den < 2 ^ 256) (hq53 : q < 2 ^ 53) :
    (2 : ℚ) ^ bexp q.num.toNat q.den ≤ round53 q ∧
      round53 q ≤ 2 ^ (bexp q.num.toNat q.den + 1) := by
  have hnum := Rat.num_pos.mpr hq
  have hn : 0 < q.num.toNat := by omega
  have hd : 0 < q.den := q.pos
  have hnb' : q.num.toNat < 2 ^ 256 := by omega
  have heq := num_toNat_div q hq
  have hwin := bexp_window q.num.toNat q.den hn hd hnb' hdb
  have hE : bexp q.num.toNat q.den ≤ 52 :=
    bexp_le_52 q.num.toNat q.den hn hd hnb' hdb (by rw [heq]; exact hq53)
  set E := bexp q.num.toNat q.den with hEdef
  set kt := (52 - E).toNat with hktdef
  have hpow : (2 : ℚ) ^ E * (2 : ℚ) ^ (kt : ℕ) = 2 ^ (52 : ℕ) := by
    rw [← zpow_natCast (2 : ℚ) kt, ← zpow_natCast (2 : ℚ) 52, ← zpow_add₀ (by norm_num : (2:ℚ) ≠ 0)]
    congr 1
    omega
  have hpow1 : (2 : ℚ) ^ (E + 1) * (2 : ℚ) ^ (kt : ℕ) = 2 ^ (53 : ℕ) := by
    rw [← zpow_natCast (2 : ℚ) kt, ← zpow_natCast (2 : ℚ) 53, ← zpow_add₀ (by norm_num : (2:ℚ) ≠ 0)]
    congr 1
    omega
  have hdQ : (0 : ℚ) < (q.den : ℚ) := by positivity
  have hq1 : (2 : ℚ) ^ E * q.den ≤ q.num.toNat := (le_div_iff₀ hdQ).mp hwin.1
  have hq2 : (q.num.toNat : ℚ) < 2 ^ (E + 1) * q.den := (div_lt_iff₀ hdQ).mp hwin.2
  have hlow : 2 ^ 52 * q.den ≤ q.num.toNat * 2 ^ kt := by
    have : ((2 ^ 52 * q.den : ℕ) : ℚ) ≤ ((q.num.toNat * 2 ^ kt : ℕ) : ℚ) := by
      push_cast
      calc (2 : ℚ) ^ 52 * q.den = 2 ^ E * q.den * 2 ^ (kt : ℕ) := by rw [← hpow]; ring
      _ ≤ (q.num.toNat : ℚ) * 2 ^ (kt : ℕ) :=
            mul_le_mul_of_nonneg_right hq1 (by positivity)
    exact_mod_cast this
  have hhigh : q.num.toNat * 2 ^ kt < 2 ^ 53 * q.den := by
    have : ((q.num.toNat * 2 ^ kt : ℕ) : ℚ) < ((2 ^ 53 * q.den : ℕ) : ℚ) := by
      push_cast
      calc (q.num.toNat : ℚ) * 2 ^ (kt : ℕ) < 2 ^ (E + 1) * q.den * 2 ^ (kt : ℕ) :=
            mul_lt_mul_of_pos_right hq2 (by positivity)
      _ = (2 : ℚ) ^ 53 * q.den := by rw [← hpow1]; ring
    exact_mod_cast this
  have hilow : 2 ^ 52 ≤ q.num.toNat * 2 ^ kt / q.den :=
    (Nat.le_div_iff_mul_le hd).mpr hlow
  have hihigh : q.num.toNat * 2 ^ kt / q.den < 2 ^ 53 :=
    (Nat.div_lt_iff_lt_mul hd).mpr hhigh
  have hmlow : 2 ^ 52 ≤ rheM (q.num.toNat * 2 ^ kt) q.den :=
    le_trans hilow (rheM_ge _ _)
  have hmhigh : rheM (q.num.toNat * 2 ^ kt) q.den ≤ 2 ^ 53 := by
    have := rheM_le (q.num.toNat * 2 ^ kt) q.den
    omega
  rw [round53_spec q hq hE]
  rw [mkRat_eq_natCast_div]
  have hktQ : ((2 ^ kt : ℕ) : ℚ) = (2 : ℚ) ^ (kt : ℕ) := by push_cast; rfl
  rw [hktQ]
  constructor
  · rw [le_div_iff₀ (by positivity)]
    calc (2 : ℚ) ^ E * 2 ^ (kt : ℕ) = 2 ^ (52 : ℕ) := hpow
    _ ≤ (rheM (q.num.toNat * 2 ^ kt) q.den : ℚ) := by exact_mod_cast hmlow
  · rw [div_le_iff₀ (by positivity)]
    calc ((rheM (q.num.toNat * 2 ^ kt) q.den : ℕ) : ℚ) ≤ ((2 ^ 53 : ℕ) : ℚ) := by
          exact_mod_cast hmhigh
    _ = 2 ^ (E + 1) * 2 ^ (kt : ℕ) := by exact_mod_cast hpow1.symm



/-- Binary64 rounding is monotone on positive values below `2 ^ 53` (inside
the fuel range of the bit-length computation). -/
theorem round53_mono (x y : ℚ) (hx : 0 < x) (hxy : x ≤ y) (hy53 : y < 2 ^ 53)
    (hxn : x.num.natAbs < 2 ^ 256) (hxd : x.den < 2 ^ 256)
    (hyn : y.num.natAbs < 2 ^ 256) (hyd : y.den < 2 ^ 256) :
    round53 x ≤ round53 y := by
  have hy : 0 < y := lt_of_lt_of_le hx hxy
  have hx53 : x < 2 ^ 53 := lt_of_le_of_lt hxy hy53
  have hxnum := Rat.num_pos.mpr hx
  have hynum := Rat.num_pos.mpr hy
  have hxnpos : 0 < x.num.toNat := by omega
  have hynpos : 0 < y.num.toNat := by omega
  have hxnb : x.num.toNat < 2 ^ 256 := by omega
  have hynb : y.num.toNat < 2 ^ 256 := by omega
  have hxeq := num_toNat_div x hx
  have hyeq := num_toNat_div y hy
  have hwx := bexp_window x.num.toNat x.den hxnpos x.pos hxnb hxd
  have hwy := bexp_window y.num.toNat y.den hynpos y.pos hynb hyd
  rw [hxeq] at hwx
  rw [hyeq] at hwy
  have hEx : bexp x.num.toNat x.den ≤ 52 :=
    bexp_le_52 x.num.toNat x.den hxnpos x.pos hxnb hxd (by rw [hxeq]; exact hx53)
  have hEy : bexp y.num.toNat y.den ≤ 52 :=
    bexp_le_52 y.num.toNat y.den hynpos y.pos hynb hyd (by rw [hyeq]; exact hy53)
  have hExy : bexp x.num.toNat x.den ≤ bexp y.num.toNat y.den := by
    have hlt : (2 : ℚ) ^ bexp x.num.toNat x.den <
        (2 : ℚ) ^ (bexp y.num.toNat y.den + 1) :=
      lt_of_le_of_lt (le_trans hwx.1 hxy) hwy.2
    have := (zpow_lt_zpow_iff_right₀ (by norm_num : (1:ℚ) < 2)).mp hlt
    omega
  rcases eq_or_lt_of_le hExy with heq | hlt
  · -- same binade: same scale, monotone significand rounding
    rw [round53_spec x hx hEx, round53_spec y hy hEy, ← heq]
    rw [mkRat_eq_natCast_div, mkRat_eq_natCast_div]
    apply div_le_div_of_nonneg_right ?_ (by positivity)
    · have hcross : x.num.toNat * y.den ≤ y.num.toNat * x.den := by
        have hQ : (x.num.toNat : ℚ) / x.den ≤ (y.num.toNat : ℚ) / y.den := by
          rw [hxeq, hyeq]
          exact hxy
        have := (div_le_div_iff₀ (by positivity : (0:ℚ) < (x.den : ℚ))
          (by positivity : (0:ℚ) < (y.den : ℚ))).mp hQ
        exact_mod_cast this
      have hm := rheM_mono (x.num.toNat * 2 ^ (52 - bexp x.num.toNat x.den).toNat) x.den
        (y.num.toNat * 2 ^ (52 - bexp x.num.toNat x.den).toNat) y.den x.pos y.pos
        (by
          calc x.num.toNat * 2 ^ (52 - bexp x.num.toNat x.den).toNat * y.den
              = x.num.toNat * y.den * 2 ^ (52 - bexp x.num.toNat x.den).toNat := by ring
          _ ≤ y.num.toNat * x.den * 2 ^ (52 - bexp x.num.toNat x.den).toNat :=
                Nat.mul_le_mul_right _ hcross
          _ = y.num.toNat * 2 ^ (52 - bexp x.num.toNat x.den).toNat * x.den := by ring)
      exact_mod_cast hm
  · -- the binades are separated: compare through the boundary
    calc round53 x ≤ 2 ^ (bexp x.num.toNat x.den + 1) :=
          (round53_bounds x hx hxn hxd hx53).2
    _ ≤ 2 ^ bexp y.num.toNat y.den :=
          zpow_le_zpow_right₀ (by norm_num : (1:ℚ) ≤ 2) (by omega)
    _ ≤ round53 y := (round53_bounds y hy hyn hyd hy53).1

/-- Naturals below `2 ^ 53` are binary64 fixed points. -/
theorem round53_natCast (c : ℕ) (hc : c < 2 ^ 53) : round53 ((c : ℕ) : ℚ) = c := by
  rcases Nat.eq_zero_or_pos c with rfl | hcpos
  · norm_num [round53, round53Pos]
  · have hq : (0 : ℚ) < ((c : ℕ) : ℚ) := by positivity
    have e1 : ((c : ℕ) : ℚ).num.toNat = c := by simp
    have e2 : ((c : ℕ) : ℚ).den = 1 := by simp
    have hb256 : c < 2 ^ 256 := lt_of_lt_of_le hc (by norm_num)
    obtain ⟨hc1, hc2⟩ := blen_bounds c hcpos hb256
    have hbpos := blen_pos c hcpos hb256
    have hb53 : blen c ≤ 53 := by
      by_contra hcon
      push_neg at hcon
      have : 2 ^ 53 ≤ 2 ^ (blen c - 1) := Nat.pow_le_pow_right (by norm_num) (by omega)
      omega
    have hblen1 : blen 1 = 1 := by decide
    have hcond : 1 * 2 ^ blen c ≤ c * 2 ^ blen 1 := by
      rw [hblen1, Nat.one_mul, Nat.pow_one]
      calc 2 ^ blen c = 2 ^ (blen c - 1) * 2 := by
            rw [← Nat.pow_succ]
            congr 1
            omega
      _ ≤ c * 2 := Nat.mul_le_mul_right 2 hc1
    have hbexp : bexp c 1 = (blen c : ℤ) - 1 := by
      rw [bexp, if_pos hcond, hblen1]
      norm_num
    have hE : bexp c 1 ≤ 52 := by
      rw [hbexp]
      omega
    rw [round53_spec ((c : ℕ) : ℚ) hq (by rw [e1, e2]; exact hE), e1, e2]
    rw [rheM_one, mkRat_eq_natCast_div]
    have hne : ((2 ^ (52 - bexp c 1).toNat : ℕ) : ℚ) ≠ 0 := by positivity
    push_cast
    rw [mul_div_assoc, div_self (by positivity), mul_one]

/-- Rounding a nonnegative rational gives a nonnegative result. -/
theorem round53_nonneg (q : ℚ) (hq : 0 ≤ q) : 0 ≤ round53 q := by
  have key : ∀ (z : ℤ), 0 ≤ z → ∀ b : ℕ, (0 : ℚ) ≤ mkRat z b := by
    intro z hz b
    rw [Rat.mkRat_eq_div]
    exact div_nonneg (by exact_mod_cast hz) (by positivity)
  rw [round53, if_neg (not_lt.mpr hq), round53Pos]
  split
  · exact le_refl 0
  · by_cases hk : (0 : ℤ) ≤ 52 - bexp q.num.toNat q.den
    · simp only [if_pos hk]
      exact key _ (by positivity) _
    · simp only [if_neg hk]
      exact key _ (by positivity) _



/-- Normalization in `mkRat` never enlarges the denominator. -/
theorem mkRat_den_le (z : ℤ) (w : ℕ) (hw : w ≠ 0) : (mkRat z w).den ≤ w := by
  have hdvd : ((mkRat z w).den : ℤ) ∣ (w : ℤ) := by
    rw [Rat.mkRat_eq_divInt]
    exact Rat.den_dvd z w
  exact Nat.le_of_dvd (Nat.pos_of_ne_zero hw) (by exact_mod_cast hdvd)

/-- Normalization in `mkRat` never enlarges the numerator. -/
theorem mkRat_num_natAbs_le (z : ℤ) (w : ℕ) (hw : w ≠ 0) :
    (mkRat z w).num.natAbs ≤ z.natAbs := by
  rcases eq_or_ne z 0 with rfl | hz
  · simp
  · have hdvd : (mkRat z w).num ∣ z := by
      rw [Rat.mkRat_eq_divInt]
      exact Rat.num_dvd z (by exact_mod_cast hw)
    exact Nat.le_of_dvd (Int.natAbs_pos.mpr hz) (Int.natAbs_dvd_natAbs.mpr hdvd)

/-- The denominator of an exact product is at most the product of the
denominators. -/
theorem qmul_den_le (a b : ℚ) : (qmul a b).den ≤ a.den * b.den :=
  mkRat_den_le _ _ (Nat.mul_ne_zero a.den_nz b.den_nz)

/-- The numerator of an exact product is at most the product of the
numerators in absolute value. -/
theorem qmul_num_natAbs_le (a b : ℚ) :
    (qmul a b).num.natAbs ≤ a.num.natAbs * b.num.natAbs := by
  have := mkRat_num_natAbs_le (a.num * b.num) (a.den * b.den)
    (Nat.mul_ne_zero a.den_nz b.den_nz)
  rwa [Int.natAbs_mul] at this

/-- The truncation used by the program is the floor (clamped at zero), since
all truncated values are nonnegative. -/
theorem ratTruncNat_eq_floor_toNat (q : ℚ) : ratTruncNat q = (⌊q⌋).toNat := by
  have hfl : ⌊q⌋ = q.num / (q.den : ℤ) := by
    conv_lhs => rw [show q = ((q.num : ℚ) / (q.den : ℚ)) from (Rat.num_div_den q).symm]
    exact Rat.floor_intCast_div_natCast q.num q.den
  rw [ratTruncNat, hfl]

/-- Truncation is monotone. -/
theorem ratTruncNat_mono (x y : ℚ) (h : x ≤ y) : ratTruncNat x ≤ ratTruncNat y := by
  rw [ratTruncNat_eq_floor_toNat, ratTruncNat_eq_floor_toNat]
  exact Int.toNat_le_toNat (Int.floor_le_floor h)

/-- Truncating a natural number is the identity. -/
theorem ratTruncNat_natCast (c : ℕ) : ratTruncNat ((c : ℕ) : ℚ) = c := by
  rw [ratTruncNat]
  simp

/-- Multiplying by one on the left is the identity for the exact product. -/
theorem qmul_one_left (b : ℚ) : qmul 1 b = b := by
  rw [qmul]
  norm_num

/-- Multiplying by zero on the right annihilates the exact product. -/
theorem qmul_zero_right (a : ℚ) : qmul a 0 = 0 := by
  rw [qmul]
  norm_num




/-- Multiplying zero on the left in the embedded f64 product gives zero. -/
theorem qmul_zero_left (b : ℚ) : qmul 0 b = 0 := by
  rw [qmul]
  norm_num

/-- A positive rational whose numerator is at most its denominator is at
most one. -/
theorem rat_le_one_of_num_le_den (q : ℚ) (h : q.num ≤ (q.den : ℤ)) : q ≤ 1 := by
  rw [← Rat.num_div_den q, div_le_one (by exact_mod_cast Rat.den_pos q)]
  exact_mod_cast h



set_option maxRecDepth 1000000 in
set_option maxHeartbeats 1000000 in
/-- Exhaustively verified facts about the rounded scaled sample
`round53 (s / 255)` for every 8-bit sample: size bounds on its reduced
numerator and denominator, a nonnegative numerator, a numerator at most
the denominator, and a positive numerator for positive samples. -/
theorem sampleRound_facts : ∀ s : ℕ, s < 256 → (round53 (mkRat s 255)).den ≤ 2 ^ 60 ∧
    (round53 (mkRat s 255)).num.natAbs ≤ 2 ^ 53 ∧
    0 ≤ (round53 (mkRat s 255)).num ∧
    (round53 (mkRat s 255)).num ≤ ((round53 (mkRat s 255)).den : ℤ) ∧
    (1 ≤ s → 0 < (round53 (mkRat s 255)).num) := by decide

/-- Quantizing a black (0) sample yields index 0, for every ramp length. -/
theorem quantize_zero_eq (L : ℕ) : quantize 0 L = 0 := by
  simp only [quantize]
  rw [show round53 (mkRat ((0 : ℕ) : ℤ) 255) = 0 from by decide, qmul_zero_left,
    show round53 (0 : ℚ) = 0 from by decide]
  decide

/-- Quantizing a white (255) sample yields the last ramp index, for every
ramp length up to `2 ^ 53`. -/
theorem quantize_255_eq (L : ℕ) (h53 : L ≤ 2 ^ 53) : quantize 255 L = L - 1 := by
  have hp53 : (2 : ℕ) ^ 53 = 9007199254740992 := by norm_num
  have hL1 : L - 1 < 2 ^ 53 := by omega
  simp only [quantize]
  rw [show round53 (mkRat ((255 : ℕ) : ℤ) 255) = 1 from by decide, qmul_one_left,
    round53_natCast (L - 1) hL1, round53_natCast (L - 1) hL1, ratTruncNat_natCast]

/-- The quantized index is monotone in the sample, for every ramp length up
to `2 ^ 53`. -/
theorem quantize_mono_le (L s1 s2 : ℕ) (h53 : L ≤ 2 ^ 53) (h12 : s1 ≤ s2)
    (h2 : s2 ≤ 255) : quantize s1 L ≤ quantize s2 L := by
  have hp53 : (2 : ℕ) ^ 53 = 9007199254740992 := by norm_num
  by_cases hL2 : L ≤ 1
  · have e : L - 1 = 0 := by omega
    simp only [quantize, e]
    rw [show round53 (((0 : ℕ) : ℚ)) = 0 from by decide, qmul_zero_right, qmul_zero_right]
  · push_neg at hL2
    have hb : round53 ((L - 1 : ℕ) : ℚ) = ((L - 1 : ℕ) : ℚ) :=
      round53_natCast (L - 1) (by omega)
    simp only [quantize]
    rw [hb]
    rcases Nat.eq_zero_or_pos s1 with rfl | hs1pos
    · rw [show round53 (mkRat ((0 : ℕ) : ℤ) 255) = 0 from by decide, qmul_zero_left,
        show round53 (0 : ℚ) = 0 from by decide]
      have h0 : ratTruncNat (0 : ℚ) = 0 := by decide
      rw [h0]
      exact Nat.zero_le _
    · obtain ⟨ha1den, ha1num, ha1nn0, ha1le0, ha1pos0⟩ := sampleRound_facts s1 (by omega)
      obtain ⟨ha2den, ha2num, ha2nn0, ha2le0, _⟩ := sampleRound_facts s2 (by omega)
      have ha1le : round53 (mkRat s1 255) ≤ 1 := rat_le_one_of_num_le_den _ ha1le0
      have ha2le : round53 (mkRat s2 255) ≤ 1 := rat_le_one_of_num_le_den _ ha2le0
      have ha1pos : 0 < round53 (mkRat s1 255) := Rat.num_pos.mp (ha1pos0 hs1pos)
      have hbnum : (((L - 1 : ℕ) : ℚ)).num.natAbs = L - 1 := by simp
      have hbden : (((L - 1 : ℕ) : ℚ)).den = 1 := by simp
      have ha12 : round53 (mkRat s1 255) ≤ round53 (mkRat s2 255) := by
        rcases eq_or_lt_of_le h12 with rfl | hlt
        · exact le_refl _
        · apply round53_mono
          · rw [mkRat_eq_natCast_div]
            positivity
          · rw [mkRat_eq_natCast_div, mkRat_eq_natCast_div]
            exact div_le_div_of_nonneg_right
              (by exact_mod_cast le_of_lt hlt) (by norm_num)
          · rw [mkRat_eq_natCast_div]
            have hle1 : (s2 : ℚ) / 255 ≤ 1 := by
              rw [div_le_one (by norm_num)]
              exact_mod_cast h2
            calc (s2 : ℚ) / 255 ≤ 1 := hle1
            _ < 2 ^ 53 := by norm_num
          · calc (mkRat (s1 : ℤ) 255).num.natAbs ≤ (s1 : ℤ).natAbs :=
                  mkRat_num_natAbs_le _ _ (by norm_num)
            _ = s1 := Int.natAbs_ofNat s1
            _ < 2 ^ 256 := by omega
          · calc (mkRat (s1 : ℤ) 255).den ≤ 255 := mkRat_den_le _ _ (by norm_num)
            _ < 2 ^ 256 := by norm_num
          · calc (mkRat (s2 : ℤ) 255).num.natAbs ≤ (s2 : ℤ).natAbs :=
                  mkRat_num_natAbs_le _ _ (by norm_num)
            _ = s2 := Int.natAbs_ofNat s2
            _ < 2 ^ 256 := by omega
          · calc (mkRat (s2 : ℤ) 255).den ≤ 255 := mkRat_den_le _ _ (by norm_num)
            _ < 2 ^ 256 := by norm_num
      have hLQpos : (0 : ℚ) < ((L - 1 : ℕ) : ℚ) := by
        have h01 : (0 : ℕ) < L - 1 := by omega
        exact_mod_cast h01
      have hxy : qmul (round53 (mkRat s1 255)) ((L - 1 : ℕ) : ℚ) ≤
          qmul (round53 (mkRat s2 255)) ((L - 1 : ℕ) : ℚ) := by
        rw [qmul_eq_mul, qmul_eq_mul]
        exact mul_le_mul_of_nonneg_right ha12 hLQpos.le
      have hxpos : 0 < qmul (round53 (mkRat s1 255)) ((L - 1 : ℕ) : ℚ) := by
        rw [qmul_eq_mul]
        exact mul_pos ha1pos hLQpos
      have hy53 : qmul (round53 (mkRat s2 255)) ((L - 1 : ℕ) : ℚ) < 2 ^ 53 := by
        rw [qmul_eq_mul]
        have hcast : ((L - 1 : ℕ) : ℚ) < ((2 ^ 53 : ℕ) : ℚ) := by
          exact_mod_cast (by omega : L - 1 < 2 ^ 53)
        calc round53 (mkRat s2 255) * ((L - 1 : ℕ) : ℚ) ≤ 1 * ((L - 1 : ℕ) : ℚ) :=
              mul_le_mul_of_nonneg_right ha2le hLQpos.le
        _ = ((L - 1 : ℕ) : ℚ) := one_mul _
        _ < ((2 ^ 53 : ℕ) : ℚ) := hcast
        _ = 2 ^ 53 := by push_cast; rfl
      have hnum1 : (qmul (round53 (mkRat s1 255)) ((L - 1 : ℕ) : ℚ)).num.natAbs < 2 ^ 256 := by
        calc (qmul (round53 (mkRat s1 255)) ((L - 1 : ℕ) : ℚ)).num.natAbs
            ≤ (round53 (mkRat s1 255)).num.natAbs * (((L - 1 : ℕ) : ℚ)).num.natAbs :=
              qmul_num_natAbs_le _ _
        _ ≤ 2 ^ 53 * (L - 1) := by rw [hbnum]; exact Nat.mul_le_mul_right _ ha1num
        _ ≤ 2 ^ 53 * 2 ^ 53 := Nat.mul_le_mul_left _ (by omega)
        _ < 2 ^ 256 := by norm_num
      have hden1 : (qmul (round53 (mkRat s1 255)) ((L - 1 : ℕ) : ℚ)).den < 2 ^ 256 := by
        calc (qmul (round53 (mkRat s1 255)) ((L - 1 : ℕ) : ℚ)).den
            ≤ (round53 (mkRat s1 255)).den * (((L - 1 : ℕ) : ℚ)).den := qmul_den_le _ _
        _ = (round53 (mkRat s1 255)).den := by rw [hbden, Nat.mul_one]
        _ ≤ 2 ^ 60 := ha1den
        _ < 2 ^ 256 := by norm_num
      have hnum2 : (qmul (round53 (mkRat s2 255)) ((L - 1 : ℕ) : ℚ)).num.natAbs < 2 ^ 256 := by
        calc (qmul (round53 (mkRat s2 255)) ((L - 1 : ℕ) : ℚ)).num.natAbs
            ≤ (round53 (mkRat s2 255)).num.natAbs * (((L - 1 : ℕ) : ℚ)).num.natAbs :=
              qmul_num_natAbs_le _ _
        _ ≤ 2 ^ 53 * (L - 1) := by rw [hbnum]; exact Nat.mul_le_mul_right _ ha2num
        _ ≤ 2 ^ 53 * 2 ^ 53 := Nat.mul_le_mul_left _ (by omega)
        _ < 2 ^ 256 := by norm_num
      have hden2 : (qmul (round53 (mkRat s2 255)) ((L - 1 : ℕ) : ℚ)).den < 2 ^ 256 := by
        calc (qmul (round53 (mkRat s2 255)) ((L - 1 : ℕ) : ℚ)).den
            ≤ (round53 (mkRat s2 255)).den * (((L - 1 : ℕ) : ℚ)).den := qmul_den_le _ _
        _ = (round53 (mkRat s2 255)).den := by rw [hbden, Nat.mul_one]
        _ ≤ 2 ^ 60 := ha2den
        _ < 2 ^ 256 := by norm_num
      exact ratTruncNat_mono _ _
        (round53_mono _ _ hxpos hxy hy53 hnum1 hden1 hnum2 hden2)

/-- The quantized index is always below the ramp length, for every positive
ramp length up to `2 ^ 53`. -/
theorem quantize_lt_len (L s : ℕ) (h1 : 1 ≤ L) (h53 : L ≤ 2 ^ 53) (hs : s ≤ 255) :
    quantize s L < L := by
  have hp53 : (2 : ℕ) ^ 53 = 9007199254740992 := by norm_num
  by_cases hL2 : L ≤ 1
  · have e : L - 1 = 0 := by omega
    simp only [quantize, e]
    rw [show round53 (((0 : ℕ) : ℚ)) = 0 from by decide, qmul_zero_right,
      show round53 (0 : ℚ) = 0 from by decide,
      show ratTruncNat (0 : ℚ) = 0 from by decide]
    omega
  · push_neg at hL2
    rcases Nat.eq_zero_or_pos s with rfl | hspos
    · rw [quantize_zero_eq]
      omega
    · obtain ⟨haden, hanum, hann0, hale0, hapos0⟩ := sampleRound_facts s (by omega)
      have hale : round53 (mkRat s 255) ≤ 1 := rat_le_one_of_num_le_den _ hale0
      have hapos : 0 < round53 (mkRat s 255) := Rat.num_pos.mp (hapos0 hspos)
      have hb : round53 ((L - 1 : ℕ) : ℚ) = ((L - 1 : ℕ) : ℚ) :=
        round53_natCast (L - 1) (by omega)
      have hbnum : (((L - 1 : ℕ) : ℚ)).num.natAbs = L - 1 := by simp
      have hbden : (((L - 1 : ℕ) : ℚ)).den = 1 := by simp
      have hLQpos : (0 : ℚ) < ((L - 1 : ℕ) : ℚ) := by
        have h01 : (0 : ℕ) < L - 1 := by omega
        exact_mod_cast h01
      simp only [quantize]
      rw [hb]
      have hxle : qmul (round53 (mkRat s 255)) ((L - 1 : ℕ) : ℚ) ≤ ((L - 1 : ℕ) : ℚ) := by
        rw [qmul_eq_mul]
        calc round53 (mkRat s 255) * ((L - 1 : ℕ) : ℚ) ≤ 1 * ((L - 1 : ℕ) : ℚ) :=
              mul_le_mul_of_nonneg_right hale hLQpos.le
        _ = ((L - 1 : ℕ) : ℚ) := one_mul _
      have hxpos : 0 < qmul (round53 (mkRat s 255)) ((L - 1 : ℕ) : ℚ) := by
        rw [qmul_eq_mul]
        exact mul_pos hapos hLQpos
      have hy53 : (((L - 1 : ℕ) : ℚ)) < 2 ^ 53 := by
        have hcast : ((L - 1 : ℕ) : ℚ) < ((2 ^ 53 : ℕ) : ℚ) := by
          exact_mod_cast (by omega : L - 1 < 2 ^ 53)
        calc ((L - 1 : ℕ) : ℚ) < ((2 ^ 53 : ℕ) : ℚ) := hcast
        _ = 2 ^ 53 := by push_cast; rfl
      have hnum1 : (qmul (round53 (mkRat s 255)) ((L - 1 : ℕ) : ℚ)).num.natAbs < 2 ^ 256 := by
        calc (qmul (round53 (mkRat s 255)) ((L - 1 : ℕ) : ℚ)).num.natAbs
            ≤ (round53 (mkRat s 255)).num.natAbs * (((L - 1 : ℕ) : ℚ)).num.natAbs :=
              qmul_num_natAbs_le _ _
        _ ≤ 2 ^ 53 * (L - 1) := by rw [hbnum]; exact Nat.mul_le_mul_right _ hanum
        _ ≤ 2 ^ 53 * 2 ^ 53 := Nat.mul_le_mul_left _ (by omega)
        _ < 2 ^ 256 := by norm_num
      have hden1 : (qmul (round53 (mkRat s 255)) ((L - 1 : ℕ) : ℚ)).den < 2 ^ 256 := by
        calc (qmul (round53 (mkRat s 255)) ((L - 1 : ℕ) : ℚ)).den
            ≤ (round53 (mkRat s 255)).den * (((L - 1 : ℕ) : ℚ)).den := qmul_den_le _ _
        _ = (round53 (mkRat s 255)).den := by rw [hbden, Nat.mul_one]
        _ ≤ 2 ^ 60 := haden
        _ < 2 ^ 256 := by norm_num
      have hmono := round53_mono _ _ hxpos hxle hy53 hnum1 hden1
        (by rw [hbnum]; omega) (by rw [hbden]; norm_num)
      have hfin := ratTruncNat_mono _ _ hmono
      rw [round53_natCast (L - 1) (by omega), ratTruncNat_natCast] at hfin
      omega

set_option maxRecDepth 1000000 in
set_option maxHeartbeats 4000000 in
/-- Exhaustive check: for every ramp length `L ≤ 12` and every 8-bit sample,
the program's binary64 quantization agrees with the exact integer floor
`s * (L - 1) / 255`. -/
theorem quantize_floor_upto12 : ∀ L < 13, ∀ s < 256, quantize s L = s * (L - 1) / 255 := by
  decide

set_option maxRecDepth 1000000 in
set_option maxHeartbeats 16000000 in
/-- Exhaustive check: for every ramp length `13 ≤ L ≤ 25` and every 8-bit
sample, the binary64 quantization agrees with the exact integer floor. -/
theorem quantize_floor_13_25 :
    ∀ L < 13, ∀ s < 256, quantize s (L + 13) = s * (L + 13 - 1) / 255 := by
  decide

set_option maxRecDepth 1000000 in
set_option maxHeartbeats 16000000 in
/-- Exhaustive check: for every ramp length `26 ≤ L ≤ 38` and every 8-bit
sample, the binary64 quantization agrees with the exact integer floor. -/
theorem quantize_floor_26_38 :
    ∀ L < 13, ∀ s < 256, quantize s (L + 26) = s * (L + 26 - 1) / 255 := by
  decide

set_option maxRecDepth 1000000 in
set_option maxHeartbeats 16000000 in
/-- Exhaustive check: for every ramp length `39 ≤ L ≤ 51` and every 8-bit
sample, the binary64 quantization agrees with the exact integer floor. -/
theorem quantize_floor_39_51 :
    ∀ L < 13, ∀ s < 256, quantize s (L + 39) = s * (L + 39 - 1) / 255 := by
  decide

/-- For every ramp length below 52 — every length before the first
disagreement — and every 8-bit sample, the binary64 quantization agrees
with the exact integer floor `s * (L - 1) / 255`. -/
theorem quantize_floor_upto51 (L s : ℕ) (hL : L < 52) (hs : s < 256) :
    quantize s L = s * (L - 1) / 255 := by
  by_cases h13 : L < 13
  · exact quantize_floor_upto12 L h13 s hs
  · by_cases h26 : L < 26
    · have h := quantize_floor_13_25 (L - 13) (by omega) s hs
      have e : L - 13 + 13 = L := by omega
      rw [e] at h
      exact h
    · by_cases h39 : L < 39
      · have h := quantize_floor_26_38 (L - 26) (by omega) s hs
        have e : L - 26 + 26 = L := by omega
        rw [e] at h
        exact h
      · have h := quantize_floor_39_51 (L - 39) (by omega) s hs
        have e : L - 39 + 39 = L := by omega
        rw [e] at h
        exact h

/-- C1 counterexample: at sample 155 and ramp length 52 the code's
double-precision quantization yields 30, one below the exact
`floor((155 / 255) * 51) = 31` the claim states — `155 / 255` rounds down to
binary64 at the `f64` division, and the later multiplication by 51 lands
just below the integer 31. -/
theorem quantize_155_52_below_exact_floor :
    quantize 155 52 = 30 ∧ 155 * (52 - 1) / 255 = 31 := ⟨by decide, by decide⟩

/-- C1 (amended): for every ramp length `1 ≤ L ≤ 2 ^ 53` the quantized
index satisfies `quantize 0 L = 0` and `quantize 255 L = L - 1`, is
monotonically non-decreasing in the sample, and is always below `L`; and
for every ramp length `L ≤ 51` it moreover equals the exact floor
`s * (L - 1) / 255`.  (At `L = 52` the exact-floor identity first fails,
see the counterexample.) -/
theorem quantize_bounded_props (L s : ℕ) (hL1 : 1 ≤ L) (hL : L ≤ 2 ^ 53)
    (hs : s ≤ 255) :
    (L ≤ 51 → quantize s L = s * (L - 1) / 255) ∧ quantize 0 L = 0 ∧
    quantize 255 L = L - 1 ∧
    (∀ s1 s2, s1 ≤ s2 → s2 ≤ 255 → quantize s1 L ≤ quantize s2 L) ∧
    quantize s L < L :=
  ⟨fun h51 => quantize_floor_upto51 L s (by omega) (by omega),
    quantize_zero_eq L, quantize_255_eq L hL,
    fun s1 s2 h12 h2 => quantize_mono_le L s1 s2 hL h12 h2,
    quantize_lt_len L s hL1 hL hs⟩

/-- Witness for C1's amended theorem at the default ramp length 10 and
sample 100. -/
theorem quantize_bounded_props_witness :
    (1 ≤ 10 ∧ 10 ≤ 2 ^ 53 ∧ 100 ≤ 255) ∧
    ((10 ≤ 51 → quantize 100 10 = 100 * (10 - 1) / 255) ∧ quantize 0 10 = 0 ∧
      quantize 255 10 = 10 - 1 ∧
      (∀ s1 s2, s1 ≤ s2 → s2 ≤ 255 → quantize s1 10 ≤ quantize s2 10) ∧
      quantize 100 10 < 10) :=
  ⟨⟨by decide, by norm_num, by decide⟩,
    quantize_bounded_props 10 100 (by decide) (by norm_num) (by decide)⟩

/-- C3: for a character whose glyph the font renders — at the requested
pixel height `px - 1` — with metrics `m` and coverage bitmap `bm` fitting
the cell, the rasterized cell is `some` glyph whose pixels inside the
centred `m.width × m.height` rectangle at offsets `(px - m.width) / 2`,
`(px - m.height) / 2` are the inverted coverage samples `255 - bm[…]` in
row-major order, and every pixel outside that rectangle is 255. -/
theorem rasterizeGlyph_geometry (font : FontFn) (px : ℕ) (c : Char) (m : Metrics)
    (bm : List ℕ) (hfont : font c (px - 1) = (m, bm)) (hh : m.height ≤ px)
    (hw : m.width ≤ px) (hlen : m.width * m.height ≤ bm.length) :
    (rasterizeGlyph font px c).isSome = true ∧
    (∀ x y, (px - m.width) / 2 ≤ x → x < m.width + (px - m.width) / 2 →
      (px - m.height) / 2 ≤ y → y < m.height + (px - m.height) / 2 →
      ((rasterizeGlyph font px c).getD fun _ _ => 0) x y =
        255 - bm.getD ((y - (px - m.height) / 2) * m.width + (x - (px - m.width) / 2)) 0) ∧
    (∀ x y, ¬((px - m.width) / 2 ≤ x ∧ x < m.width + (px - m.width) / 2 ∧
        (px - m.height) / 2 ≤ y ∧ y < m.height + (px - m.height) / 2) →
      ((rasterizeGlyph font px c).getD fun _ _ => 0) x y = 255) := by
  have hG : rasterizeGlyph font px c = some fun x y =>
      if (px - m.width) / 2 ≤ x ∧ x < m.width + (px - m.width) / 2 ∧
          (px - m.height) / 2 ≤ y ∧ y < m.height + (px - m.height) / 2 then
        255 - bm.getD ((y - (px - m.height) / 2) * m.width + (x - (px - m.width) / 2)) 0
      else 255 := by
    simp only [rasterizeGlyph, rasterizeGlyphE, hfont, if_pos hh, if_pos hw, if_pos hlen,
      Except.toOption]
  refine ⟨by rw [hG]; rfl, ?_, ?_⟩
  · intro x y h1 h2 h3 h4
    rw [hG]
    simp only [Option.getD_some]
    rw [if_pos ⟨h1, h2, h3, h4⟩]
  · intro x y hout
    rw [hG]
    simp only [Option.getD_some]
    rw [if_neg hout]

/-- Witness for C3 at `demoFont` with an 8-pixel cell: the 2×3 glyph sits at
offsets (3, 2); the first bitmap sample 10 appears inverted as 245 at
(3, 2), and the corner (0, 0) stays white. -/
theorem rasterizeGlyph_geometry_witness :
    (demoFont 'A' (8 - 1) = (⟨2, 3⟩, [10, 20, 30, 40, 50, 60]) ∧ (3 : ℕ) ≤ 8 ∧
      (2 : ℕ) ≤ 8 ∧ 2 * 3 ≤ 6) ∧
    (rasterizeGlyph demoFont 8 'A').isSome = true ∧
    ((rasterizeGlyph demoFont 8 'A').getD fun _ _ => 0) 3 2 = 245 ∧
    ((rasterizeGlyph demoFont 8 'A').getD fun _ _ => 0) 0 0 = 255 := by
  have h := rasterizeGlyph_geometry demoFont 8 'A' ⟨2, 3⟩ [10, 20, 30, 40, 50, 60] rfl
    (by decide) (by decide) (by decide)
  refine ⟨⟨rfl, by decide, by decide, by decide⟩, h.1, ?_, ?_⟩
  · rw [h.2.1 3 2 (by decide) (by decide) (by decide) (by decide)]
    decide
  · exact h.2.2 0 0 (by decide)

/-- C4 (amended): glyph rasterization succeeds exactly when the rendered
height and width are at most the cell size and the coverage bitmap has at
least `width * height` samples (so rendered height exactly `px` succeeds and
`px + 1` fails); a bounds overflow aborts with a diagnostic carrying the
offending character, while a too-short coverage bitmap aborts with a generic
buffer-too-small diagnostic that does not identify the character. -/
theorem rasterizeGlyphE_conditions (font : FontFn) (px : ℕ) (c : Char) (m : Metrics)
    (bm : List ℕ) (hfont : font c (px - 1) = (m, bm)) :
    ((rasterizeGlyphE font px c).isOk = true ↔
      m.height ≤ px ∧ m.width ≤ px ∧ m.width * m.height ≤ bm.length) ∧
    (¬(m.height ≤ px ∧ m.width ≤ px) →
      rasterizeGlyphE font px c = .error (.boundsOverflow c)) ∧
    (m.height ≤ px → m.width ≤ px → bm.length < m.width * m.height →
      rasterizeGlyphE font px c = .error .bufferTooSmall) := by
  simp only [rasterizeGlyphE, hfont]
  by_cases h1 : m.height ≤ px
  · by_cases h2 : m.width ≤ px
    · by_cases h3 : m.width * m.height ≤ bm.length
      · refine ⟨by simp [if_pos h1, if_pos h2, if_pos h3, Except.isOk, Except.toBool, h1,
          h2, h3], ?_, ?_⟩
        · intro hc
          exact absurd ⟨h1, h2⟩ hc
        · intro _ _ h3c
          omega
      · refine ⟨by simp [if_pos h1, if_pos h2, if_neg h3, Except.isOk, Except.toBool, h3],
          ?_, ?_⟩
        · intro hc
          exact absurd ⟨h1, h2⟩ hc
        · intro _ _ _
          rw [if_pos h1, if_pos h2, if_neg h3]
    · refine ⟨by simp [if_pos h1, if_neg h2, Except.isOk, Except.toBool, h2], ?_, ?_⟩
      · intro _
        rw [if_pos h1, if_neg h2]
      · intro _ h2c _
        exact absurd h2c h2
  · refine ⟨by simp [if_neg h1, Except.isOk, Except.toBool, h1], ?_, ?_⟩
    · intro _
      rw [if_neg h1]
    · intro h1c _ _
      exact absurd h1c h1

/-- C4 counterexample: when the coverage bitmap is shorter than the mask
region requires, two different offending characters produce the *same*
generic diagnostic, so the abort does not identify the offending character
(the source's `expect("rasterized image buffer too small")` interpolates
nothing). -/
theorem shortBitmap_diagnostic_lacks_char :
    rasterizeGlyphE shortBitmapFont 4 'A' = .error .bufferTooSmall ∧
    rasterizeGlyphE shortBitmapFont 4 'B' = .error .bufferTooSmall ∧ 'A' ≠ 'B' :=
  ⟨rfl, rfl, by decide⟩

/-- Witness for C4's amended theorem: rendered height exactly 8 in an
8-pixel cell succeeds, rendered height 9 fails with the character-carrying
bounds diagnostic. -/
theorem rasterizeGlyphE_conditions_witness :
    (boundaryFont 'A' (8 - 1) = (⟨2, 8⟩, List.replicate 16 0) ∧
      overFont 'B' (8 - 1) = (⟨2, 9⟩, List.replicate 18 0)) ∧
    (rasterizeGlyphE boundaryFont 8 'A').isOk = true ∧
    rasterizeGlyphE overFont 8 'B' = .error (.boundsOverflow 'B') :=
  ⟨⟨rfl, rfl⟩,
    (rasterizeGlyphE_conditions boundaryFont 8 'A' ⟨2, 8⟩ (List.replicate 16 0) rfl).1.mpr
      (by decide),
    (rasterizeGlyphE_conditions overFont 8 'B' ⟨2, 9⟩ (List.replicate 18 0) rfl).2.1
      (by decide)⟩

/-- C5: whenever every ramp character rasterizes and every quantized index
is a valid ramp index (always the case for 8-bit samples and a nonempty
ramp), raster-mode output is produced with pixel dimensions
`width*px × height*px`, and for every source pixel `(x, y)` the `px × px`
block at origin `(x*px, y*px)` equals, pixel for pixel, the cached glyph
bitmap of the ramp character chosen by quantizing that pixel's sample. -/
theorem rasterize_blocks (font : FontFn) (px : ℕ) (a : AsciiImage) (hpx : 0 < px)
    (hcells : ∀ c ∈ a.table, (rasterizeGlyph font px c).isSome = true)
    (hidx : ∀ x, x < a.image.width → ∀ y, y < a.image.height →
      rasterCharIndex (a.image.get x y) a.table.length < a.table.length) :
    (a.rasterize font px).isSome = true ∧
    ((a.rasterize font px).getD ⟨0, 0, fun _ _ => 0⟩).width = a.image.width * px ∧
    ((a.rasterize font px).getD ⟨0, 0, fun _ _ => 0⟩).height = a.image.height * px ∧
    (∀ x, x < a.image.width → ∀ y, y < a.image.height → ∀ sx, sx < px → ∀ sy, sy < px →
      ∀ g, rasterizeGlyph font px
          (a.table.getD (rasterCharIndex (a.image.get x y) a.table.length) 'A') = some g →
        ((a.rasterize font px).getD ⟨0, 0, fun _ _ => 0⟩).pix (x * px + sx) (y * px + sy) =
          g sx sy) := by
  have hall : (a.table.all fun c => (rasterizeGlyph font px c).isSome) = true := by
    rw [List.all_eq_true]
    intro c hc
    exact hcells c hc
  have hall2 : ((List.range a.image.height).all fun y =>
      (List.range a.image.width).all fun x =>
        rasterCharIndex (a.image.get x y) a.table.length < a.table.length) = true := by
    rw [List.all_eq_true]
    intro y hy
    rw [List.all_eq_true]
    intro x hx
    exact decide_eq_true (hidx x (List.mem_range.mp hx) y (List.mem_range.mp hy))
  have hR : a.rasterize font px = some
      { width := a.image.width * px
        height := a.image.height * px
        pix := fun X Y =>
          let c := a.table.getD
            (rasterCharIndex (a.image.get (X / px) (Y / px)) a.table.length) 'A'
          ((rasterizeGlyph font px c).getD fun _ _ => 0) (X % px) (Y % px) } := by
    rw [AsciiImage.rasterize, if_pos hall, if_pos hall2]
  refine ⟨by rw [hR]; rfl, by rw [hR]; rfl, by rw [hR]; rfl, ?_⟩
  intro x hx y hy sx hsx sy hsy g hg
  rw [hR]
  simp only [Option.getD_some]
  have hdx : (x * px + sx) / px = x := by
    rw [Nat.mul_comm x px, Nat.mul_add_div hpx, Nat.div_eq_of_lt hsx, Nat.add_zero]
  have hdy : (y * px + sy) / px = y := by
    rw [Nat.mul_comm y px, Nat.mul_add_div hpx, Nat.div_eq_of_lt hsy, Nat.add_zero]
  have hmx : (x * px + sx) % px = sx := by
    rw [Nat.mul_comm x px, Nat.mul_add_mod, Nat.mod_eq_of_lt hsx]
  have hmy : (y * px + sy) % px = sy := by
    rw [Nat.mul_comm y px, Nat.mul_add_mod, Nat.mod_eq_of_lt hsy]
  simp only [hdx, hdy, hmx, hmy, hg, Option.getD_some]

/-- Witness for C5: the spec's raster scenario — a uniformly black 2×2
image, the ramp `"#. "`, cell size 8 — produces a 16×16 canvas. -/
theorem rasterize_blocks_witness :
    ((0 : ℕ) < 8 ∧ (∀ c ∈ demoRamp, (rasterizeGlyph zeroGlyphFont 8 c).isSome = true) ∧
      (∀ x, x < blackImg2.width → ∀ y, y < blackImg2.height →
        rasterCharIndex (blackImg2.get x y) demoRamp.length < demoRamp.length)) ∧
    ((AsciiImage.mk blackImg2 demoRamp).rasterize zeroGlyphFont 8).isSome = true ∧
    (((AsciiImage.mk blackImg2 demoRamp).rasterize zeroGlyphFont 8).getD
      ⟨0, 0, fun _ _ => 0⟩).width = 16 ∧
    (((AsciiImage.mk blackImg2 demoRamp).rasterize zeroGlyphFont 8).getD
      ⟨0, 0, fun _ _ => 0⟩).height = 16 := by
  have h := rasterize_blocks zeroGlyphFont 8 ⟨blackImg2, demoRamp⟩ (by decide) (by decide)
    (by decide)
  refine ⟨⟨by decide, by decide, by decide⟩, h.1, ?_, ?_⟩
  · rw [h.2.1]
    decide
  · rw [h.2.2.1]
    decide

/-- An `Option`-monad `mapM` over a list on which the function always
succeeds is `some` of the plain `map`. -/
theorem mapM_eq_map_of_some {α β : Type} (f : α → Option β) (g : α → β) :
    ∀ l : List α, (∀ a ∈ l, f a = some (g a)) → l.mapM f = some (l.map g) := by
  intro l
  induction l with
  | nil => intro _; rfl
  | cons a t ih =>
    intro h
    rw [List.mapM_cons, h a (List.mem_cons_self a t),
      ih fun b hb => h b (List.mem_cons_of_mem a hb)]
    rfl

/-- C6: whenever every quantized index is a valid ramp index (always the
case for 8-bit samples and a nonempty ramp), text-mode formatting succeeds
and the string is exactly each row serialized as the concatenation of its
chosen characters, every character duplicated twice, rows joined with
`"\r\n"` and no trailing terminator. -/
theorem fmt_serialization (a : AsciiImage)
    (hidx : ∀ x, x < a.image.width → ∀ y, y < a.image.height →
      fmtCharIndex (a.image.get x y) a.table.length < a.table.length) :
    a.fmt = some (String.intercalate "\r\n" ((List.range a.image.height).map fun y =>
      String.join ((List.range a.image.width).map fun x =>
        String.mk [a.table.getD (fmtCharIndex (a.image.get x y) a.table.length) 'A',
          a.table.getD (fmtCharIndex (a.image.get x y) a.table.length) 'A']))) := by
  rw [AsciiImage.fmt]
  rw [mapM_eq_map_of_some _ (fun y => String.join ((List.range a.image.width).map fun x =>
        String.mk [a.table.getD (fmtCharIndex (a.image.get x y) a.table.length) 'A',
          a.table.getD (fmtCharIndex (a.image.get x y) a.table.length) 'A']))]
  · simp [List.map_map]
  · intro y hy
    rw [mapM_eq_map_of_some _ (fun x =>
        String.mk [a.table.getD (fmtCharIndex (a.image.get x y) a.table.length) 'A',
          a.table.getD (fmtCharIndex (a.image.get x y) a.table.length) 'A'])]
    · rfl
    · intro x hx
      have hlt := hidx x (List.mem_range.mp hx) y (List.mem_range.mp hy)
      rw [List.getD_eq_getElem?_getD, List.get?_eq_getElem?, List.getElem?_eq_getElem hlt]
      rfl

/-- Witness for C6: the spec's text scenario — a uniformly white 4×4 image
with ramp `"#. "` formats as four lines of four doubled spaces separated by
CRLF. -/
theorem fmt_serialization_witness :
    (∀ x, x < whiteImg4.width → ∀ y, y < whiteImg4.height →
      fmtCharIndex (whiteImg4.get x y) demoRamp.length < demoRamp.length) ∧
    (AsciiImage.mk whiteImg4 demoRamp).fmt =
      some (String.intercalate "\r\n" ["        ", "        ", "        ", "        "]) := by
  refine ⟨by decide, ?_⟩
  rw [fmt_serialization ⟨whiteImg4, demoRamp⟩ (by decide)]
  decide

/-- C7: scale-spec parsing maps `"100"` to `(100, 100)`, `"100:_"` to
`(100, None)` and `"_:50"` to `(None, 50)`; every string with more than two
colon-separated fields is rejected, and so is every string containing a
field that is neither `"_"` nor a parsable `u32`. -/
theorem scaler_parse_cases :
    Scaler.parse "100" = some (some 100, some 100) ∧
    Scaler.parse "100:_" = some (some 100, none) ∧
    Scaler.parse "_:50" = some (none, some 50) ∧
    (∀ s : String, 2 < (splitCols s.data).length → Scaler.parse s = none) ∧
    (∀ (s : String) (f : List Char), f ∈ splitCols s.data → f ≠ ['_'] →
      parseU32 f = none → Scaler.parse s = none) := by
  refine ⟨by decide, by decide, by decide, ?_, ?_⟩
  · intro s hlen
    rw [Scaler.parse]
    split
    · rcases h : splitCols s.data with _ | ⟨a, t1⟩
      · rw [h] at hlen
        simp at hlen
      · rcases t1 with _ | ⟨b, t2⟩
        · rw [h] at hlen
          simp at hlen
        · rcases t2 with _ | ⟨c, r⟩
          · rw [h] at hlen
            simp at hlen
          · simp [h]
    · rfl
  · intro s f hmem hne hnone
    rw [Scaler.parse]
    rw [if_neg]
    intro hall
    rw [List.all_eq_true] at hall
    have := hall f hmem
    rw [hnone] at this
    simp at this
    exact hne this

/-- Reading a prefix of a list by successive `getD` rebuilds its `take`. -/
theorem rangeMap_getD_take (w : ℕ) :
    ∀ l : List ℕ, w ≤ l.length → (List.range w).map (fun x => l.getD x 0) = l.take w := by
  induction w with
  | zero => intro l _; simp
  | succ n ih =>
    intro l h
    cases l with
    | nil => simp at h
    | cons a t =>
      rw [List.range_succ_eq_map, List.map_cons, List.map_map]
      have hcomp : ((fun x => (a :: t).getD x 0) ∘ Nat.succ) = fun x => t.getD x 0 := by
        funext x
        simp [List.getD_cons_succ]
      rw [hcomp, List.getD_cons_zero, List.take_succ_cons, ih t (by simpa using h)]

/-- Reading a `w × h` row-major buffer back pixel by pixel rebuilds the
buffer. -/
theorem flatten_rows_getD (w : ℕ) :
    ∀ (h : ℕ) (l : List ℕ), l.length = w * h →
      ((List.range h).map fun y => (List.range w).map fun x => l.getD (y * w + x) 0).flatten
        = l := by
  intro h
  induction h with
  | zero =>
    intro l hl
    rw [Nat.mul_zero] at hl
    rw [List.length_eq_zero.mp hl]
    rfl
  | succ n ih =>
    intro l hl
    rw [Nat.mul_succ] at hl
    rw [List.range_succ_eq_map, List.map_cons, List.map_map, List.flatten_cons]
    have hw : w ≤ l.length := by omega
    have hhead : (List.range w).map (fun x => l.getD (0 * w + x) 0) = l.take w := by
      have hz : (fun x => l.getD (0 * w + x) 0) = fun x => l.getD x 0 := by
        funext x
        rw [Nat.zero_mul, Nat.zero_add]
      rw [hz, rangeMap_getD_take w l hw]
    have htail : ((fun y => (List.range w).map fun x => l.getD (y * w + x) 0) ∘ Nat.succ)
        = fun y => (List.range w).map fun x => (l.drop w).getD (y * w + x) 0 := by
      funext y
      simp only [Function.comp_apply]
      congr 1
      funext x
      rw [List.getD_eq_getElem?_getD, List.getD_eq_getElem?_getD, List.getElem?_drop]
      have hidx2 : Nat.succ y * w + x = w + (y * w + x) := by
        rw [Nat.succ_mul]
        omega
      rw [hidx2]
    rw [hhead, htail, ih (l.drop w) (by rw [List.length_drop, hl]; omega)]
    exact List.take_append_drop w l

/-- C8: scaling with neither target dimension given returns an image equal
to the input pixel for pixel with identical dimensions, performing no
resampling — the result does not depend on the resampler or the selected
filter at all. -/
theorem scale_identity (resize : GrayImg → ℕ → ℕ → Filter → GrayImg) (filter : Filter)
    (img : GrayImg) (hwf : img.data.length = img.width * img.height) :
    Scaler.scale resize (none, none) img filter = img := by
  rw [Scaler.scale]
  have hdata : ((List.range img.height).map fun y =>
      (List.range img.width).map fun x => img.get x y).flatten = img.data := by
    have hb : (fun (y : ℕ) => (List.range img.width).map fun x => img.get x y)
        = fun y => (List.range img.width).map fun x => img.data.getD (y * img.width + x) 0 := by
      funext y
      rfl
    rw [hb, flatten_rows_getD img.width img.height img.data hwf]
  rw [hdata]

/-- Witness for C8 at a concrete 2×2 image and the default filter. -/
theorem scale_identity_witness :
    ((⟨2, 2, [1, 2, 3, 4]⟩ : GrayImg).data.length =
      (⟨2, 2, [1, 2, 3, 4]⟩ : GrayImg).width * (⟨2, 2, [1, 2, 3, 4]⟩ : GrayImg).height) ∧
    Scaler.scale idResize (none, none) ⟨2, 2, [1, 2, 3, 4]⟩ Filter.lanczos3 =
      ⟨2, 2, [1, 2, 3, 4]⟩ :=
  ⟨by decide, scale_identity idResize Filter.lanczos3 ⟨2, 2, [1, 2, 3, 4]⟩ (by decide)⟩

end Ascii
